import Mathlib

/-!
Shallow embedding of the text-analysis core of the SEO page-auditor
extension (file `src/content/analyzer.js`): the content statistics
(`countText`), the readability scorer (`analyzeReadability` /
`computeReadability` together with `countSyllables`) and the n-gram
extractor (`analyzeNgrams`, `buildNgramCounts`, `getTopN`).

Strings are modelled as `List Char` (a JS string is a sequence of
characters; all inputs of interest are ASCII).  JS numbers are modelled
as `ℚ`: the analyzer only adds, multiplies, divides and rounds decimal
quantities, and the specification states its formulas over ideal
(real/rational) arithmetic, so ℚ is the faithful idealisation.
`x.toFixed(1)` (round to nearest, ties up) is modelled with Mathlib's
`round`, which also rounds half up.
-/

/-- A JS string, modelled as its character sequence. -/
abbrev Word := List Char

/-- The character class `\s` of the analyzer's regexes, restricted to the
ASCII whitespace characters (space, tab, newline, carriage return,
vertical tab, form feed). -/
def jsIsSpace (c : Char) : Bool :=
  c = ' ' || c = '\t' || c = '\n' || c = '\r' || c = '\x0b' || c = '\x0c'

/-- `text.replace(/\s+/g, ' ')`: every maximal run of whitespace becomes a
single space, all other characters are kept. -/
def collapseWS : List Char → List Char
  | [] => []
  | [c] => if jsIsSpace c then [' '] else [c]
  | c1 :: c2 :: cs =>
    if jsIsSpace c1 && jsIsSpace c2 then collapseWS (c2 :: cs)
    else (if jsIsSpace c1 then ' ' else c1) :: collapseWS (c2 :: cs)

/-- `s.trim()`: drop leading and trailing whitespace. -/
def trimWS (l : List Char) : List Char :=
  (((l.dropWhile jsIsSpace).reverse).dropWhile jsIsSpace).reverse

/-- Accumulator-based splitter: `cur` is the (reversed) current token. -/
def splitTokensAux : List Char → List Char → List Word
  | cur, [] => if cur.isEmpty then [] else [cur.reverse]
  | cur, c :: cs =>
    if jsIsSpace c then
      if cur.isEmpty then splitTokensAux [] cs
      else cur.reverse :: splitTokensAux [] cs
    else splitTokensAux (c :: cur) cs

/-- `text.split(/\s+/)` on trimmed text: the maximal non-whitespace runs. -/
def splitTokens (l : List Char) : List Word := splitTokensAux [] l

/-- A sentence terminator character: `.`, `!` or `?`. -/
def isTerm (c : Char) : Bool := c = '.' || c = '!' || c = '?'

/-- State machine for `(text.match(/[.!?]+(\s|$)/g) || []).length`: the
Boolean records whether we are inside a run of terminator characters; a
run followed by whitespace or end-of-string is one match (the regex also
consumes the single following whitespace character, which cannot start a
new match anyway). -/
def countSentencesAux : List Char → Bool → Nat
  | [], inRun => if inRun then 1 else 0
  | c :: cs, inRun =>
    if isTerm c then countSentencesAux cs true
    else if inRun && jsIsSpace c then 1 + countSentencesAux cs false
    else countSentencesAux cs false

/-- Number of regex matches of `[.!?]+(\s|$)` in the text. -/
def countSentences (l : List Char) : Nat := countSentencesAux l false

/-- State machine computing
`text.trim().split(/\n\s*\n/).filter(p => p.trim()).length` on the
already-trimmed text: a maximal whitespace run containing at least two
newlines is a block separator (the regex `\n\s*\n` matches from the
first to the last newline of such a run), and because the text is
trimmed every block between separators contains a non-whitespace
character, so the `filter` keeps every block.  `hasC` records whether
the current block has content; `nl` counts newlines in the pending
whitespace run. -/
def paraAux : List Char → Bool → Nat → Nat
  | [], hasC, _ => if hasC then 1 else 0
  | c :: cs, hasC, nl =>
    if jsIsSpace c then paraAux cs hasC (if c = '\n' then nl + 1 else nl)
    else if 2 ≤ nl then (if hasC then 1 else 0) + paraAux cs true 0
    else paraAux cs true 0

/-- `text.trim() ? text.trim().split(/\n\s*\n/).filter(p => p.trim()).length : 0` -/
def countParagraphs (text : List Char) : Nat :=
  let t := trimWS text
  if t.isEmpty then 0 else paraAux t false 0

/-- The cleaned text: `text.replace(/\s+/g, ' ').trim()`. -/
def cleanedText (raw : List Char) : List Char := trimWS (collapseWS raw)

/-- The word list of the readability path: `text.split(/\s+/)` on the
cleaned text. -/
def wordsOf (raw : List Char) : List Word := splitTokens (cleanedText raw)

/-- `words.length` for the cleaned text. -/
def wordCount (raw : List Char) : Nat := (wordsOf raw).length

/-- The result record of `countText`. -/
structure ContentStats where
  characters : Nat
  charactersNoSpaces : Nat
  words : Nat
  sentences : Nat
  paragraphs : Nat
  readingTimeMin : Nat
deriving DecidableEq, Repr

/-- `countText(text)`: word/character/sentence/paragraph counts and the
reading-time estimate `Math.max(1, Math.ceil(words / 238))` (on naturals,
`Math.ceil(w / 238) = (w + 237) / 238`). -/
def countText (text : List Char) : ContentStats :=
  { characters := (cleanedText text).length
    charactersNoSpaces := ((cleanedText text).filter (fun c => !jsIsSpace c)).length
    words := if (cleanedText text).isEmpty then 0 else wordCount text
    sentences := if (cleanedText text).isEmpty then 0 else countSentences (cleanedText text)
    paragraphs := countParagraphs text
    readingTimeMin :=
      max 1 (((if (cleanedText text).isEmpty then 0 else wordCount text) + 237) / 238) }

-- quick sanity examples (claims settled further below)
example : countText "a b. c".data =
    ⟨6, 4, 3, 1, 1, 1⟩ := by decide
example : countText "".data = ⟨0, 0, 0, 0, 0, 1⟩ := by decide
example : countText "one\n\ntwo three.  four! ".data =
    ⟨20, 17, 4, 2, 2, 1⟩ := by decide

/-- `c.toLowerCase()` for ASCII letters (the analyzer strips everything
that is not `a`-`z` right afterwards, so only ASCII matters). -/
def jsToLower (c : Char) : Char :=
  if 'A' ≤ c && c ≤ 'Z' then Char.ofNat (c.toNat + 32) else c

/-- Is this (already lower-cased) character one of the vowels
`a,e,i,o,u,y`? -/
def isVowel (c : Char) : Bool :=
  c = 'a' || c = 'e' || c = 'i' || c = 'o' || c = 'u' || c = 'y'

/-- Number of maximal runs of vowels, i.e. `(w.match(/[aeiouy]+/g)).length`
(0 when there is no match). -/
def vowelRunsAux : List Char → Bool → Nat
  | [], _ => 0
  | c :: cs, inRun =>
    if isVowel c then (if inRun then 0 else 1) + vowelRunsAux cs true
    else vowelRunsAux cs false

/-- Count of maximal vowel runs in a word. -/
def vowelRuns (w : List Char) : Nat := vowelRunsAux w false

/-- `word.replace(/e$/, '')`: drop one trailing `e`, if any. -/
def stripTrailingE (w : List Char) : List Char :=
  if w.getLast? = some 'e' then w.dropLast else w

/-- `countSyllables(word)` from `analyzer.js`: lower-case, strip
non-letters, short words count 1, otherwise strip a trailing silent `e`
and count vowel groups (`vowelGroups ? vowelGroups.length : 1`, then
`Math.max(1, count)`). -/
def countSyllables (word : Word) : Nat :=
  let w := (word.map jsToLower).filter (fun c => 'a' ≤ c && c ≤ 'z')
  if w.length ≤ 2 then 1
  else
    let w2 := stripTrailingE w
    let g := vowelRuns w2
    max 1 (if g = 0 then 1 else g)

/-- The syllable estimator as the specification words it (§4.2): identical
pipeline, but stated as `max(1, number of vowel-runs)` directly. -/
def countSyllablesSpec (word : Word) : Nat :=
  let w := (word.map jsToLower).filter (fun c => 'a' ≤ c && c ≤ 'z')
  if w.length ≤ 2 then 1 else max 1 (vowelRuns (stripTrailingE w))

example : countSyllables "cat".data = 1 := by decide
example : countSyllables "beautiful".data = 3 := by decide
example : countSyllables "a".data = 1 := by decide
example : countSyllables "rhythm".data = 1 := by decide
example : countSyllables "mate".data = 1 := by decide

/-- `x.toFixed(1)` as a rational: round to the nearest tenth (ties up,
like `toFixed`). -/
def round1 (x : ℚ) : ℚ := (round (10 * x) : ℤ) / 10

/-- `x.toFixed(2)` as a rational: round to the nearest hundredth. -/
def round2 (x : ℚ) : ℚ := (round (100 * x) : ℤ) / 100

/-- `Math.max(1, (text.match(/[.!?]+(\s|$)/g) || []).length)` on the
cleaned text — the sentence count used as divisor by the readability
formulas. -/
def sentenceCountOf (raw : List Char) : Nat := max 1 (countSentences (cleanedText raw))

/-- `words.reduce((sum, w) => sum + countSyllables(w), 0)`. -/
def totalSyllablesOf (raw : List Char) : Nat :=
  ((wordsOf raw).map countSyllables).sum

/-- `words.join('').length`: total characters of all words concatenated. -/
def joinedLenOf (raw : List Char) : Nat := ((wordsOf raw).map List.length).sum

/-- `+(wordCount / sentenceCount).toFixed(1)`. -/
def avgSentenceLenOf (raw : List Char) : ℚ :=
  round1 ((wordCount raw : ℚ) / (sentenceCountOf raw : ℚ))

/-- `+(words.join('').length / wordCount).toFixed(1)`. -/
def avgWordLenOf (raw : List Char) : ℚ :=
  round1 ((joinedLenOf raw : ℚ) / (wordCount raw : ℚ))

/-- `+(totalSyllables / wordCount).toFixed(2)`. -/
def syllablesPerWordOf (raw : List Char) : ℚ :=
  round2 ((totalSyllablesOf raw : ℚ) / (wordCount raw : ℚ))

/-- `Math.max(0, Math.min(100, +(206.835 - 1.015*(wc/sc) - 84.6*(ts/wc)).toFixed(1)))`. -/
def fleschEaseOf (raw : List Char) : ℚ :=
  max 0 (min 100 (round1 ((206.835 : ℚ)
    - (1.015 : ℚ) * ((wordCount raw : ℚ) / (sentenceCountOf raw : ℚ))
    - (84.6 : ℚ) * ((totalSyllablesOf raw : ℚ) / (wordCount raw : ℚ)))))

/-- `Math.max(0, +(0.39*(wc/sc) + 11.8*(ts/wc) - 15.59).toFixed(1))`. -/
def fleschKincaidOf (raw : List Char) : ℚ :=
  max 0 (round1 ((0.39 : ℚ) * ((wordCount raw : ℚ) / (sentenceCountOf raw : ℚ))
    + (11.8 : ℚ) * ((totalSyllablesOf raw : ℚ) / (wordCount raw : ℚ))
    - (15.59 : ℚ)))

/-- `fleschEase >= 60 ? 100 : fleschEase >= 40 ? 70 : fleschEase >= 20 ? 40 : 20`. -/
def scoreOfEase (fe : ℚ) : Nat :=
  if 60 ≤ fe then 100 else if 40 ≤ fe then 70 else if 20 ≤ fe then 40 else 20

/-- The message of the degraded readability report. -/
def notEnoughMsg : String := "Not enough text to analyze (need 30+ words)"

/-- The result record of `analyzeReadability`.  In JS the numeric fields
are dynamically `number | null`, hence `Option ℚ`; `score` is always a
number. -/
structure ReadabilityReport where
  score : Nat
  fleschEase : Option ℚ
  fleschKincaid : Option ℚ
  avgSentenceLen : Option ℚ
  avgWordLen : Option ℚ
  syllablesPerWord : Option ℚ
  message : Option String
deriving DecidableEq, Repr

/-- The text-analysis core of `analyzeReadability(text)` (the DOM
extraction `document.body` → visible text is the caller's job; `raw` is
that extracted text).  Guard: `!text || text.split(/\s+/).length < 30`
returns the degraded report with `fleschEase`/`fleschKincaid` null and
the three averages `0`. -/
def computeReadability (raw : List Char) : ReadabilityReport :=
  if (cleanedText raw).isEmpty || wordCount raw < 30 then
    { score := 0, fleschEase := none, fleschKincaid := none,
      avgSentenceLen := some 0, avgWordLen := some 0,
      syllablesPerWord := some 0, message := some notEnoughMsg }
  else
    { score := scoreOfEase (fleschEaseOf raw)
      fleschEase := some (fleschEaseOf raw)
      fleschKincaid := some (fleschKincaidOf raw)
      avgSentenceLen := some (avgSentenceLenOf raw)
      avgWordLen := some (avgWordLenOf raw)
      syllablesPerWord := some (syllablesPerWordOf raw)
      message := none }

example : (computeReadability "hello world".data).message = some notEnoughMsg := by decide

/-- The stop-word set of `analyzeNgrams`, exactly as enumerated in the
source (the source builds a JS `Set`, so the few repeated entries there
are harmless; membership is all that matters). -/
def stopWordsStr : List String :=
  ["a","an","the","and","or","but","in","on","at","to","for","of","with","by",
   "from","is","it","its","this","that","are","was","were","be","been","being",
   "have","has","had","do","does","did","will","would","could","should","may",
   "might","shall","can","not","no","nor","so","if","then","than","too","very",
   "just","about","above","after","again","all","also","am","as","because",
   "before","between","both","each","few","get","got","he","her","here","him",
   "his","how","i","into","me","more","most","my","new","now","of","only",
   "other","our","out","over","own","re","same","she","some","such","there",
   "they","their","them","these","those","through","under","up","us","we",
   "what","when","where","which","while","who","whom","why","you","your",
   "able","across","already","always","among","any","around","away","back",
   "become","been","below","come","down","during","even","every","find",
   "first","go","going","good","great","help","here","high","however",
   "into","keep","know","last","let","like","long","look","made","make",
   "many","much","must","need","next","off","often","old","once","one",
   "only","part","per","put","said","say","see","seem","set","show",
   "since","still","take","tell","thing","think","time","two","use",
   "want","way","well","work","year"]

/-- The stop words as character lists. -/
def stopWords : List Word := stopWordsStr.map String.data

/-- `stopWords.has(w)`. -/
def isStopWord (w : Word) : Bool := decide (w ∈ stopWords)

/-- `counts[gram] = (counts[gram] || 0) + 1` on a frequency table kept in
key-insertion order (the iteration order `Object.entries` gives for the
string keys produced here). -/
def bump (counts : List (Word × Nat)) (key : Word) : List (Word × Nat) :=
  if counts.any (fun p => p.1 = key) then
    counts.map (fun p => if p.1 = key then (p.1, p.2 + 1) else p)
  else counts ++ [(key, 1)]

/-- `words.slice(i, i + n)`. -/
def windowAt (ws : List Word) (i n : Nat) : List Word := (ws.drop i).take n

/-- `parts.join(' ')`. -/
def joinSpace : List Word → Word
  | [] => []
  | [w] => w
  | w :: ws => w ++ ' ' :: joinSpace ws

/-- `buildNgramCounts(words, n, stopWords)`: one candidate per start index
`0 .. words.length - n`; for `n > 1` with a stop-word set supplied, a
candidate all of whose words are stop words is skipped.  (`useStop`
records whether the `stopWords` argument was passed.) -/
def buildNgramCounts (ws : List Word) (n : Nat) (useStop : Bool) : List (Word × Nat) :=
  (List.range (ws.length + 1 - n)).foldl
    (fun counts i =>
      if useStop && decide (1 < n) && (windowAt ws i n).all isStopWord then counts
      else bump counts (joinSpace (windowAt ws i n)))
    []

/-- The keys of a frequency table, in iteration order. -/
def keysOf (counts : List (Word × Nat)) : List Word := counts.map Prod.fst

/-- `words.filter(w => !stopWords.has(w) && w.length > 1)` — the
pre-filtered unigram universe. -/
def contentWords (ws : List Word) : List Word :=
  ws.filter (fun w => !isStopWord w && decide (1 < w.length))

/-- `words.filter(w => w.length > 1)` — the bigram/trigram sliding-window
universe (stop words included). -/
def longWords (ws : List Word) : List Word :=
  ws.filter (fun w => decide (1 < w.length))

/-- `buildNgramCounts(filtered, 1)` of `analyzeNgrams`. -/
def unigramCounts (ws : List Word) : List (Word × Nat) :=
  buildNgramCounts (contentWords ws) 1 false

/-- `buildNgramCounts(words.filter(w => w.length > 1), 2, stopWords)`. -/
def bigramCounts (ws : List Word) : List (Word × Nat) :=
  buildNgramCounts (longWords ws) 2 true

/-- `buildNgramCounts(words.filter(w => w.length > 1), 3, stopWords)`. -/
def trigramCounts (ws : List Word) : List (Word × Nat) :=
  buildNgramCounts (longWords ws) 3 true

/-- Stable insertion of an entry into a list sorted by descending count:
the new entry goes after every entry of count ≥ its own.  Folding this
over the input from the left is extensionally the ECMAScript
`sort((a, b) => b[1] - a[1])`, which is required to be a stable sort and
hence uniquely determined by the comparator. -/
def insertDesc (p : Word × Nat) : List (Word × Nat) → List (Word × Nat)
  | [] => [p]
  | q :: qs => if p.2 ≤ q.2 then q :: insertDesc p qs else p :: q :: qs

/-- Stable sort by descending count. -/
def sortDesc (l : List (Word × Nat)) : List (Word × Nat) :=
  l.foldl (fun acc p => insertDesc p acc) []

/-- `getTopN(counts, n)`: keep entries of count ≥ 2, stable-sort by
descending count, take the first `n` (`slice(0, n)`); entries are kept
as `(phrase, count)` pairs. -/
def getTopN (counts : List (Word × Nat)) (n : Nat) : List (Word × Nat) :=
  (sortDesc (counts.filter (fun p => 2 ≤ p.2))).take n

/-- The result record of `analyzeNgrams` (over the already-tokenized word
list; the DOM extraction and the `text.match(...)` tokenization happen in
the caller). -/
structure NgramReport where
  unigrams : List (Word × Nat)
  bigrams : List (Word × Nat)
  trigrams : List (Word × Nat)
  totalWords : Nat
  uniqueWords : Nat
deriving DecidableEq, Repr

/-- `analyzeNgrams` from the tokenized word list onward. -/
def analyzeNgrams (ws : List Word) : NgramReport :=
  { unigrams := getTopN (unigramCounts ws) 15
    bigrams := getTopN (bigramCounts ws) 10
    trigrams := getTopN (trigramCounts ws) 10
    totalWords := ws.length
    uniqueWords := ws.dedup.length }

example :
    getTopN [("aa".data, 1), ("bb".data, 3), ("cc".data, 2), ("dd".data, 3)] 2
      = [("bb".data, 3), ("dd".data, 3)] := by decide
example : keysOf (bigramCounts ["the".data, "cat".data, "on".data, "the".data, "mat".data])
      = ["the cat".data, "cat on".data, "the mat".data] := by decide

/-! ## Helper lemmas -/

/-- `max 1 (if g = 0 then 1 else g)` (source shape) collapses to
`max 1 g` (spec shape). -/
theorem max_one_if_eq (g : Nat) : max 1 (if g = 0 then 1 else g) = max 1 g := by
  rcases g with _ | g <;> simp

/-- A trimmed string is empty exactly when everything was whitespace. -/
theorem trimWS_eq_nil_iff (l : List Char) : trimWS l = [] ↔ ∀ c ∈ l, jsIsSpace c := by
  unfold trimWS
  rw [List.reverse_eq_nil_iff, List.dropWhile_eq_nil_iff]
  constructor
  · intro h c hc
    have hsplit : c ∈ l.takeWhile jsIsSpace ++ l.dropWhile jsIsSpace := by
      rw [List.takeWhile_append_dropWhile]; exact hc
    rcases List.mem_append.mp hsplit with h1 | h1
    · exact List.mem_takeWhile_imp h1
    · exact h c (List.mem_reverse.mpr h1)
  · intro h c hc
    exact h c ((List.dropWhile_sublist jsIsSpace).mem (List.mem_reverse.mp hc))

/-- Collapsing whitespace cannot erase non-whitespace content. -/
theorem allWS_of_collapse :
    ∀ l : List Char, (∀ c ∈ collapseWS l, jsIsSpace c) → ∀ c ∈ l, jsIsSpace c
  | [] => fun _ c hc => absurd hc (List.not_mem_nil c)
  | [a] => fun h c hc => by
      rw [List.mem_singleton] at hc; subst hc
      by_cases hA : jsIsSpace c
      · exact hA
      · exact h c (by simp [collapseWS, hA])
  | c1 :: c2 :: cs => fun h c hc => by
      by_cases h12 : (jsIsSpace c1 && jsIsSpace c2) = true
      · have hrec := allWS_of_collapse (c2 :: cs)
          (fun d hd => h d (by simpa [collapseWS, h12] using hd))
        rcases List.mem_cons.mp hc with rfl | hc2
        · exact (Bool.and_eq_true _ _).mp h12 |>.1
        · exact hrec c hc2
      · have hrec := allWS_of_collapse (c2 :: cs)
          (fun d hd => h d (by simp [collapseWS, h12]; exact Or.inr hd))
        rcases List.mem_cons.mp hc with rfl | hc2
        · have hhd := h (if jsIsSpace c then ' ' else c) (by simp [collapseWS, h12])
          by_cases hA : jsIsSpace c
          · exact hA
          · simp [hA] at hhd
        · exact hrec c hc2

/-- If the cleaned text is empty, the raw text was all whitespace. -/
theorem trimWS_eq_nil_of_cleaned (l : List Char) (h : cleanedText l = []) :
    trimWS l = [] := by
  rw [trimWS_eq_nil_iff]
  exact allWS_of_collapse l ((trimWS_eq_nil_iff (collapseWS l)).mp h)

/-- Empty cleaned text means an empty word list. -/
theorem wordCount_eq_zero_of_cleaned (l : List Char) (h : cleanedText l = []) :
    wordCount l = 0 := by
  simp [wordCount, wordsOf, h, splitTokens, splitTokensAux]

/-! ## Claims -/

/-- C6: `countSyllables` always returns at least 1, follows the spec's
algorithm (lower-case, strip non-letters, length ≤ 2 gives 1, strip one
trailing `e`, `max(1, vowel runs)`), and `countSyllables "cat" = 1`,
`countSyllables "beautiful" ≥ 3`, `countSyllables "a" = 1`. -/
theorem claim6_countSyllables :
    (∀ w : Word, 1 ≤ countSyllables w ∧ countSyllables w = countSyllablesSpec w)
    ∧ countSyllables "cat".data = 1
    ∧ 3 ≤ countSyllables "beautiful".data
    ∧ countSyllables "a".data = 1 := by
  refine ⟨fun w => ⟨?_, ?_⟩, by decide, by decide, by decide⟩
  · simp only [countSyllables]
    split
    · exact Nat.le_refl 1
    · exact Nat.le_max_left 1 _
  · simp only [countSyllables, countSyllablesSpec, max_one_if_eq]

/-- C7: `countText` returns a non-negative word count and
`readingTimeMin = max(1, ceil(words / 238))`; the two inequalities pin
`(words + 237) / 238` down as the actual ceiling of `words / 238`, and
the reading time is at least 1 whenever there are words. -/
theorem claim7_readingTime (text : List Char) (h : 0 < (countText text).words) :
    0 ≤ (countText text).words
    ∧ (countText text).readingTimeMin = max 1 (((countText text).words + 237) / 238)
    ∧ 238 * ((countText text).readingTimeMin - 1) < (countText text).words
    ∧ (countText text).words ≤ 238 * (countText text).readingTimeMin
    ∧ 1 ≤ (countText text).readingTimeMin := by
  have key : (countText text).readingTimeMin
      = max 1 (((countText text).words + 237) / 238) := rfl
  refine ⟨Nat.zero_le _, key, ?_, ?_, ?_⟩ <;> rw [key] <;> omega

/-- C7 witness: a concrete text with at least one word. -/
theorem claim7_witness :
    0 < (countText "two words".data).words
    ∧ (0 ≤ (countText "two words".data).words
      ∧ (countText "two words".data).readingTimeMin
          = max 1 (((countText "two words".data).words + 237) / 238)
      ∧ 238 * ((countText "two words".data).readingTimeMin - 1)
          < (countText "two words".data).words
      ∧ (countText "two words".data).words
          ≤ 238 * (countText "two words".data).readingTimeMin
      ∧ 1 ≤ (countText "two words".data).readingTimeMin) :=
  ⟨by decide, claim7_readingTime "two words".data (by decide)⟩

/-- C9: `countText` is a pure function of its input text — equal inputs
give equal `ContentStats`. -/
theorem claim9_deterministic (s t : List Char) (h : s = t) :
    countText s = countText t := by rw [h]

/-- C9 witness at a concrete string. -/
theorem claim9_witness :
    "same input".data = "same input".data
    ∧ countText "same input".data = countText "same input".data :=
  ⟨rfl, claim9_deterministic "same input".data "same input".data rfl⟩

/-- C10: on the empty string — and on any input whose cleaned text is
empty — every count is 0 but `readingTimeMin` is 1, and the reading time
is never 0 on any input. -/
theorem claim10_emptyText :
    countText ([] : List Char) = ⟨0, 0, 0, 0, 0, 1⟩
    ∧ (∀ text : List Char, cleanedText text = [] → countText text = ⟨0, 0, 0, 0, 0, 1⟩)
    ∧ (∀ text : List Char, 1 ≤ (countText text).readingTimeMin) := by
  refine ⟨by decide, ?_, fun text => Nat.le_max_left 1 _⟩
  intro text hc
  have ht : trimWS text = [] := trimWS_eq_nil_of_cleaned text hc
  simp [countText, countParagraphs, hc, ht]

/-- C10 witness: an all-whitespace input whose cleaned text is empty. -/
theorem claim10_witness :
    cleanedText "  \n\t ".data = []
    ∧ countText "  \n\t ".data = ⟨0, 0, 0, 0, 0, 1⟩ :=
  ⟨by decide, claim10_emptyText.2.1 "  \n\t ".data (by decide)⟩

/-- A concrete input with 36 words, used below to instantiate the
readability theorems. -/
def exLongText : List Char :=
  ("the quick brown fox jumps over the lazy dog. "
    ++ "the quick brown fox jumps over the lazy dog. "
    ++ "the quick brown fox jumps over the lazy dog. "
    ++ "the quick brown fox jumps over the lazy dog.").data

example : wordCount exLongText = 36 := by decide

/-- With at least 30 words the short-text guard of `computeReadability`
is not taken and the report carries the computed metrics. -/
theorem computeReadability_eq_of_min_words (raw : List Char) (h : 30 ≤ wordCount raw) :
    computeReadability raw =
      { score := scoreOfEase (fleschEaseOf raw)
        fleschEase := some (fleschEaseOf raw)
        fleschKincaid := some (fleschKincaidOf raw)
        avgSentenceLen := some (avgSentenceLenOf raw)
        avgWordLen := some (avgWordLenOf raw)
        syllablesPerWord := some (syllablesPerWordOf raw)
        message := none } := by
  have hne : (cleanedText raw).isEmpty = false := by
    rcases hE : (cleanedText raw).isEmpty with _ | _
    · rfl
    · have h0 : wordCount raw = 0 :=
        wordCount_eq_zero_of_cleaned raw (List.isEmpty_iff.mp hE)
      omega
  have hguard : ((cleanedText raw).isEmpty || decide (wordCount raw < 30)) = false := by
    simp [hne]; omega
  simp [computeReadability, hguard]

/-- C1 (amended): on fewer than 30 words `computeReadability` always
returns the degraded report — `message` set, score 0, `fleschEase` and
`fleschKincaid` null — but the three averages are `0`, not null,
regardless of the text's content. -/
theorem claim1_degraded (raw : List Char) (h : wordCount raw < 30) :
    computeReadability raw =
      { score := 0, fleschEase := none, fleschKincaid := none,
        avgSentenceLen := some 0, avgWordLen := some 0,
        syllablesPerWord := some 0, message := some notEnoughMsg } := by
  simp [computeReadability, h]

/-- C1 counterexample: on a short input (2 words, under the 30-word
threshold) the field `avgSentenceLen` is the number `0`, not null, so
"all numeric fields are null" fails. -/
theorem claim1_counterexample :
    wordCount "hello world".data < 30
    ∧ (computeReadability "hello world".data).message ≠ none
    ∧ (computeReadability "hello world".data).avgSentenceLen = some 0
    ∧ (computeReadability "hello world".data).avgSentenceLen ≠ none := by
  refine ⟨by decide, by decide, by decide, by decide⟩

/-- C1 witness: the amended degraded report at a concrete short input. -/
theorem claim1_witness :
    wordCount "hello world".data < 30
    ∧ computeReadability "hello world".data =
      { score := 0, fleschEase := none, fleschKincaid := none,
        avgSentenceLen := some 0, avgWordLen := some 0,
        syllablesPerWord := some 0, message := some notEnoughMsg } :=
  ⟨by decide, claim1_degraded "hello world".data (by decide)⟩

/-- C2: with at least 30 words, `fleschEase` is the Flesch Reading Ease
formula rounded to 1 decimal and clamped to `[0, 100]`, and any value it
carries lies in `[0, 100]`. -/
theorem claim2_fleschEase (raw : List Char) (h : 30 ≤ wordCount raw) :
    (computeReadability raw).fleschEase =
      some (max 0 (min 100 (round1 ((206.835 : ℚ)
        - (1.015 : ℚ) * ((wordCount raw : ℚ) / (sentenceCountOf raw : ℚ))
        - (84.6 : ℚ) * ((totalSyllablesOf raw : ℚ) / (wordCount raw : ℚ))))))
    ∧ ∀ q : ℚ, (computeReadability raw).fleschEase = some q → 0 ≤ q ∧ q ≤ 100 := by
  rw [computeReadability_eq_of_min_words raw h]
  refine ⟨rfl, fun q hq => ?_⟩
  have hq2 : fleschEaseOf raw = q := Option.some_injective ℚ hq
  subst hq2
  constructor
  · exact le_max_left 0 _
  · exact max_le (by norm_num) (min_le_left _ _)

/-- C2 witness: the Flesch Ease contract instantiated at the 36-word text. -/
theorem claim2_witness :
    30 ≤ wordCount exLongText
    ∧ ((computeReadability exLongText).fleschEase =
        some (max 0 (min 100 (round1 ((206.835 : ℚ)
          - (1.015 : ℚ) * ((wordCount exLongText : ℚ) / (sentenceCountOf exLongText : ℚ))
          - (84.6 : ℚ) * ((totalSyllablesOf exLongText : ℚ) / (wordCount exLongText : ℚ))))))
      ∧ ∀ q : ℚ, (computeReadability exLongText).fleschEase = some q → 0 ≤ q ∧ q ≤ 100) :=
  ⟨by decide, claim2_fleschEase exLongText (by decide)⟩

/-- C5: with at least 30 words the categorical score is the four-step
cascade on `fleschEase` (≥60 ↦ 100, ≥40 ↦ 70, ≥20 ↦ 40, else 20), and at
the boundary an ease of exactly 60 scores 100 while 59.9 scores 70. -/
theorem claim5_score (raw : List Char) (h : 30 ≤ wordCount raw) :
    ((computeReadability raw).fleschEase = some (fleschEaseOf raw)
      ∧ (computeReadability raw).score =
          (if 60 ≤ fleschEaseOf raw then 100
            else if 40 ≤ fleschEaseOf raw then 70
            else if 20 ≤ fleschEaseOf raw then 40 else 20))
    ∧ scoreOfEase 60 = 100 ∧ scoreOfEase (59.9 : ℚ) = 70 := by
  rw [computeReadability_eq_of_min_words raw h]
  exact ⟨⟨rfl, rfl⟩, by norm_num [scoreOfEase], by norm_num [scoreOfEase]⟩

/-- C5 witness: the score cascade instantiated at the 36-word text. -/
theorem claim5_witness :
    30 ≤ wordCount exLongText
    ∧ (((computeReadability exLongText).fleschEase = some (fleschEaseOf exLongText)
      ∧ (computeReadability exLongText).score =
          (if 60 ≤ fleschEaseOf exLongText then 100
            else if 40 ≤ fleschEaseOf exLongText then 70
            else if 20 ≤ fleschEaseOf exLongText then 40 else 20))
      ∧ scoreOfEase 60 = 100 ∧ scoreOfEase (59.9 : ℚ) = 70) :=
  ⟨by decide, claim5_score exLongText (by decide)⟩

/-- C8: the sentence count used as divisor is `max(1, countSentences)`,
hence strictly positive; with at least 30 words the word-count divisor is
also positive, and the average-sentence-length field indeed divides by
that floored sentence count. -/
theorem claim8_divisors (raw : List Char) :
    0 < sentenceCountOf raw
    ∧ sentenceCountOf raw = max 1 (countSentences (cleanedText raw))
    ∧ (30 ≤ wordCount raw →
        0 < wordCount raw
        ∧ (computeReadability raw).avgSentenceLen =
            some (round1 ((wordCount raw : ℚ) / (sentenceCountOf raw : ℚ)))) := by
  refine ⟨lt_of_lt_of_le one_pos (Nat.le_max_left 1 _), rfl, fun h => ⟨by omega, ?_⟩⟩
  rw [computeReadability_eq_of_min_words raw h]
  rfl

/-- C8 witness: positive divisors at the 36-word text. -/
theorem claim8_witness :
    30 ≤ wordCount exLongText
    ∧ (0 < wordCount exLongText
      ∧ (computeReadability exLongText).avgSentenceLen =
          some (round1 ((wordCount exLongText : ℚ) / (sentenceCountOf exLongText : ℚ)))) :=
  ⟨by decide, (claim8_divisors exLongText).2.2 (by decide)⟩

/-! ## Sorting lemmas for `getTopN` -/

/-- Membership through `insertDesc`. -/
theorem mem_insertDesc (p a : Word × Nat) (l : List (Word × Nat)) :
    a ∈ insertDesc p l ↔ a = p ∨ a ∈ l := by
  induction l with
  | nil => simp [insertDesc]
  | cons q qs ih =>
    simp only [insertDesc]
    split
    · rw [List.mem_cons, ih, List.mem_cons]
      tauto
    · simp only [List.mem_cons]

/-- `insertDesc` preserves the sorted-by-descending-count invariant. -/
theorem pairwise_insertDesc (p : Word × Nat) (l : List (Word × Nat))
    (hl : l.Pairwise (fun a b => b.2 ≤ a.2)) :
    (insertDesc p l).Pairwise (fun a b => b.2 ≤ a.2) := by
  induction l with
  | nil => simp [insertDesc]
  | cons q qs ih =>
    rw [List.pairwise_cons] at hl
    obtain ⟨hq, hqs⟩ := hl
    simp only [insertDesc]
    split
    · rename_i hpq
      rw [List.pairwise_cons]
      refine ⟨fun b hb => ?_, ih hqs⟩
      rcases (mem_insertDesc p b qs).mp hb with rfl | hbq
      · exact hpq
      · exact hq b hbq
    · rename_i hpq
      rw [List.pairwise_cons]
      refine ⟨fun b hb => ?_, List.pairwise_cons.mpr ⟨hq, hqs⟩⟩
      rcases List.mem_cons.mp hb with rfl | hbqs
      · omega
      · have := hq b hbqs
        omega

/-- Inserting into a sorted list puts the new entry after every earlier
entry of the same count. -/
theorem filter_insertDesc (c : Nat) (p : Word × Nat) (l : List (Word × Nat))
    (hl : l.Pairwise (fun a b => b.2 ≤ a.2)) :
    (insertDesc p l).filter (fun q => q.2 = c)
      = if p.2 = c then l.filter (fun q => q.2 = c) ++ [p]
        else l.filter (fun q => q.2 = c) := by
  induction l with
  | nil =>
    simp only [insertDesc, List.filter_nil]
    by_cases hpc : p.2 = c <;> simp [hpc]
  | cons q qs ih =>
    rw [List.pairwise_cons] at hl
    obtain ⟨hq, hqs⟩ := hl
    simp only [insertDesc]
    split
    · rename_i hpq
      rw [List.filter_cons, ih hqs]
      by_cases hpc : p.2 = c
      · simp only [hpc, if_true]
        by_cases hqc : q.2 = c <;> simp [hqc, List.filter_cons]
      · simp only [hpc, if_false]
        by_cases hqc : q.2 = c <;> simp [hqc, List.filter_cons]
    · rename_i hpq
      by_cases hpc : p.2 = c
      · have hnone : (q :: qs).filter (fun q => q.2 = c) = [] := by
          rw [List.filter_eq_nil_iff]
          intro b hb
          have hble : b.2 ≤ q.2 := by
            rcases List.mem_cons.mp hb with rfl | hbqs
            · exact Nat.le_refl _
            · exact hq b hbqs
          simp only [decide_eq_true_eq]
          omega
        rw [List.filter_cons, hnone]
        simp [hpc, hnone]
      · rw [List.filter_cons]
        simp [hpc]

/-- Folding `insertDesc` keeps the list sorted and appends, count class
by count class, the new entries after the old ones in arrival order. -/
theorem sortDesc_invariant (c : Nat) :
    ∀ (l acc : List (Word × Nat)), acc.Pairwise (fun a b => b.2 ≤ a.2) →
      (l.foldl (fun acc p => insertDesc p acc) acc).Pairwise (fun a b => b.2 ≤ a.2)
      ∧ (l.foldl (fun acc p => insertDesc p acc) acc).filter (fun q => q.2 = c)
          = acc.filter (fun q => q.2 = c) ++ l.filter (fun q => q.2 = c)
  | [], acc, h => ⟨h, by simp⟩
  | p :: l, acc, h => by
    have hstep := sortDesc_invariant c l (insertDesc p acc) (pairwise_insertDesc p acc h)
    simp only [List.foldl_cons]
    refine ⟨hstep.1, ?_⟩
    rw [hstep.2, filter_insertDesc c p acc h, List.filter_cons]
    by_cases hpc : p.2 = c <;> simp [hpc]

/-- `sortDesc` sorts by descending count. -/
theorem sortDesc_pairwise (l : List (Word × Nat)) :
    (sortDesc l).Pairwise (fun a b => b.2 ≤ a.2) :=
  (sortDesc_invariant 0 l [] List.Pairwise.nil).1

/-- `sortDesc` is stable: within each count class it is the identity. -/
theorem sortDesc_filter_count (l : List (Word × Nat)) (c : Nat) :
    (sortDesc l).filter (fun q => q.2 = c) = l.filter (fun q => q.2 = c) := by
  have h := (sortDesc_invariant c l [] List.Pairwise.nil).2
  simpa [sortDesc] using h

/-- `sortDesc` only permutes its input. -/
theorem mem_sortDesc (l : List (Word × Nat)) (p : Word × Nat) (h : p ∈ sortDesc l) :
    p ∈ l := by
  have hp : p ∈ (sortDesc l).filter (fun q => q.2 = p.2) :=
    List.mem_filter.mpr ⟨h, by simp⟩
  rw [sortDesc_filter_count] at hp
  exact (List.mem_filter.mp hp).1

/-- C3: `getTopN` never surfaces an entry of count < 2, returns at most
`n` entries, sorted non-increasing by count, and is stable: restricted to
any fixed count the output is a sublist (hence in original first-seen
order) of the input frequency table. -/
theorem claim3_getTopN (counts : List (Word × Nat)) (n : Nat) :
    (∀ p ∈ getTopN counts n, 2 ≤ p.2)
    ∧ (getTopN counts n).length ≤ n
    ∧ (getTopN counts n).Pairwise (fun p q => q.2 ≤ p.2)
    ∧ ∀ c : Nat, List.Sublist ((getTopN counts n).filter (fun p => p.2 = c))
        (counts.filter (fun p => p.2 = c)) := by
  refine ⟨?_, ?_, ?_, ?_⟩
  · intro p hp
    have h1 : p ∈ sortDesc (counts.filter (fun p => 2 ≤ p.2)) :=
      (List.take_sublist n _).mem hp
    have h2 := mem_sortDesc _ p h1
    have h3 := (List.mem_filter.mp h2).2
    exact of_decide_eq_true h3
  · have := List.length_take n (sortDesc (counts.filter (fun p => 2 ≤ p.2)))
    simp only [getTopN]
    omega
  · exact List.Pairwise.sublist (List.take_sublist n _) (sortDesc_pairwise _)
  · intro c
    have h1 : List.Sublist ((getTopN counts n).filter (fun p => p.2 = c))
        ((sortDesc (counts.filter (fun p => 2 ≤ p.2))).filter (fun p => p.2 = c)) :=
      List.Sublist.filter _ (List.take_sublist n _)
    rw [sortDesc_filter_count] at h1
    exact h1.trans (List.Sublist.filter _ (List.filter_sublist counts))

/-! ## Key-set lemmas for the n-gram tables -/

/-- `bump` adds `key` to the key set and keeps all existing keys. -/
theorem mem_keysOf_bump (counts : List (Word × Nat)) (key a : Word) :
    a ∈ keysOf (bump counts key) ↔ a ∈ keysOf counts ∨ a = key := by
  unfold bump keysOf
  split
  · rename_i hany
    rw [List.map_map]
    have hfst : (Prod.fst ∘ fun p : Word × Nat => if p.1 = key then (p.1, p.2 + 1) else p)
        = Prod.fst := by
      funext p
      by_cases h : p.1 = key <;> simp [h]
    rw [hfst]
    constructor
    · exact Or.inl
    · rintro (h | rfl)
      · exact h
      · obtain ⟨p, hp, hpk⟩ := List.any_eq_true.mp hany
        exact List.mem_map.mpr ⟨p, hp, of_decide_eq_true hpk⟩
  · rw [List.map_append]
    simp

/-- Keys accumulated by the `buildNgramCounts` fold: an existing key of
the accumulator, or the joined phrase of some non-skipped window index. -/
theorem keysOf_ngramFold (ws : List Word) (n : Nat) (useStop : Bool) :
    ∀ (is : List Nat) (acc : List (Word × Nat)) (a : Word),
      a ∈ keysOf (is.foldl (fun counts i =>
          if useStop && decide (1 < n) && (windowAt ws i n).all isStopWord then counts
          else bump counts (joinSpace (windowAt ws i n))) acc)
      ↔ a ∈ keysOf acc
        ∨ ∃ i ∈ is, (useStop && decide (1 < n) && (windowAt ws i n).all isStopWord) = false
            ∧ a = joinSpace (windowAt ws i n)
  | [], acc, a => by simp
  | i0 :: is, acc, a => by
    simp only [List.foldl_cons]
    rcases hskip : useStop && decide (1 < n) && (windowAt ws i0 n).all isStopWord with _ | _
    · rw [if_neg Bool.false_ne_true,
        keysOf_ngramFold ws n useStop is (bump acc (joinSpace (windowAt ws i0 n))) a,
        mem_keysOf_bump]
      constructor
      · rintro ((h | rfl) | ⟨i, hi, hc, ha⟩)
        · exact Or.inl h
        · exact Or.inr ⟨i0, List.mem_cons_self i0 is, hskip, rfl⟩
        · exact Or.inr ⟨i, List.mem_cons_of_mem i0 hi, hc, ha⟩
      · rintro (h | ⟨i, hi, hc, ha⟩)
        · exact Or.inl (Or.inl h)
        · rcases List.mem_cons.mp hi with rfl | hi2
          · exact Or.inl (Or.inr ha)
          · exact Or.inr ⟨i, hi2, hc, ha⟩
    · rw [if_pos rfl, keysOf_ngramFold ws n useStop is acc a]
      constructor
      · rintro (h | ⟨i, hi, hc, ha⟩)
        · exact Or.inl h
        · exact Or.inr ⟨i, List.mem_cons_of_mem i0 hi, hc, ha⟩
      · rintro (h | ⟨i, hi, hc, ha⟩)
        · exact Or.inl h
        · rcases List.mem_cons.mp hi with rfl | hi2
          · rw [hskip] at hc
            exact absurd hc (by decide)
          · exact Or.inr ⟨i, hi2, hc, ha⟩

/-- Characterization of the keys of `buildNgramCounts`: exactly the
joined phrases of the sliding windows that are not skipped by the
all-stop-words rule. -/
theorem mem_keysOf_buildNgramCounts (ws : List Word) (n : Nat) (useStop : Bool) (a : Word) :
    a ∈ keysOf (buildNgramCounts ws n useStop)
    ↔ ∃ i, i < ws.length + 1 - n
        ∧ (useStop && decide (1 < n) && (windowAt ws i n).all isStopWord) = false
        ∧ a = joinSpace (windowAt ws i n) := by
  unfold buildNgramCounts
  rw [keysOf_ngramFold]
  simp [keysOf]

/-- A window of width 1 is the single element at its start index. -/
theorem windowAt_one (l : List Word) :
    ∀ i : Nat, i < l.length → windowAt l i 1 = [l.getD i []] := by
  induction l with
  | nil => intro i h; simp at h
  | cons x xs ih =>
    intro i h
    cases i with
    | zero => simp [windowAt]
    | succ j =>
      have hj : j < xs.length := by
        simp at h; omega
      have := ih j hj
      simpa [windowAt] using this

/-- A window of width 2 is the pair of elements at its start index. -/
theorem windowAt_two (l : List Word) :
    ∀ i : Nat, i + 2 ≤ l.length → windowAt l i 2 = [l.getD i [], l.getD (i + 1) []] := by
  induction l with
  | nil => intro i h; simp at h
  | cons x xs ih =>
    intro i h
    cases i with
    | zero =>
      cases xs with
      | nil => simp at h
      | cons y ys => simp [windowAt]
    | succ j =>
      have hj : j + 2 ≤ xs.length := by
        simp at h; omega
      have := ih j hj
      simpa [windowAt] using this

/-- An in-bounds `getD` is a member of the list. -/
theorem getD_mem_of_lt (l : List Word) (i : Nat) (h : i < l.length) : l.getD i [] ∈ l := by
  rw [List.getD_eq_getElem l [] h]
  exact List.getElem_mem h

/-- Joining two space-free words with a space is injective. -/
theorem append_space_inj (a1 : Word) :
    ∀ (a2 b1 b2 : Word), (∀ c ∈ a1, c ≠ ' ') → (∀ c ∈ a2, c ≠ ' ') →
      a1 ++ ' ' :: b1 = a2 ++ ' ' :: b2 → a1 = a2 ∧ b1 = b2 := by
  induction a1 with
  | nil =>
    intro a2 b1 b2 h1 h2 heq
    cases a2 with
    | nil => simpa using heq
    | cons d s =>
      rw [List.nil_append, List.cons_append] at heq
      injection heq with hd ht
      exact absurd hd.symm (h2 d (List.mem_cons_self d s))
  | cons c t ih =>
    intro a2 b1 b2 h1 h2 heq
    cases a2 with
    | nil =>
      rw [List.nil_append, List.cons_append] at heq
      injection heq with hd ht
      exact absurd hd (h1 c (List.mem_cons_self c t))
    | cons d s =>
      rw [List.cons_append, List.cons_append] at heq
      injection heq with hd ht
      subst hd
      obtain ⟨h3, h4⟩ := ih s b1 b2
        (fun x hx => h1 x (List.mem_cons_of_mem _ hx))
        (fun x hx => h2 x (List.mem_cons_of_mem _ hx)) ht
      exact ⟨by rw [h3], h4⟩

/-- C4: unigram counts are built only from tokens that are neither stop
words nor single characters; bigram/trigram keys are exactly the joined
sliding windows over all tokens of length > 1 that are not made of stop
words only (so a candidate is discarded iff every constituent word is a
stop word); in particular, for any token list the all-stop bigram
"on the" never appears, while a window with at least one non-stop word
always does. -/
theorem claim4_ngramAsymmetry (ws : List Word) (hns : ∀ w ∈ ws, ∀ c ∈ w, c ≠ ' ') :
    (∀ a ∈ keysOf (unigramCounts ws), a ∈ ws ∧ isStopWord a = false ∧ 1 < a.length)
    ∧ (∀ k : Word, k ∈ keysOf (bigramCounts ws) ↔
        ∃ i, i + 2 ≤ (longWords ws).length
          ∧ (windowAt (longWords ws) i 2).all isStopWord = false
          ∧ k = joinSpace (windowAt (longWords ws) i 2))
    ∧ (∀ k : Word, k ∈ keysOf (trigramCounts ws) ↔
        ∃ i, i + 3 ≤ (longWords ws).length
          ∧ (windowAt (longWords ws) i 3).all isStopWord = false
          ∧ k = joinSpace (windowAt (longWords ws) i 3))
    ∧ "on the".data ∉ keysOf (bigramCounts ws)
    ∧ (∀ (a b : Word) (i : Nat), i + 2 ≤ (longWords ws).length →
        windowAt (longWords ws) i 2 = [a, b] →
        ¬(isStopWord a = true ∧ isStopWord b = true) →
        joinSpace [a, b] ∈ keysOf (bigramCounts ws)) := by
  have hbi : ∀ k : Word, k ∈ keysOf (bigramCounts ws) ↔
      ∃ i, i + 2 ≤ (longWords ws).length
        ∧ (windowAt (longWords ws) i 2).all isStopWord = false
        ∧ k = joinSpace (windowAt (longWords ws) i 2) := by
    intro k
    unfold bigramCounts
    rw [mem_keysOf_buildNgramCounts]
    constructor
    · rintro ⟨i, hi, hc, hk⟩
      exact ⟨i, by omega, hc, hk⟩
    · rintro ⟨i, hi, hc, hk⟩
      exact ⟨i, by omega, hc, hk⟩
  refine ⟨?_, hbi, ?_, ?_, ?_⟩
  · intro a ha
    unfold unigramCounts at ha
    rw [mem_keysOf_buildNgramCounts] at ha
    obtain ⟨i, hi, _, ha2⟩ := ha
    have hi2 : i < (contentWords ws).length := by omega
    rw [windowAt_one _ i hi2] at ha2
    have ha3 : a = (contentWords ws).getD i [] := by simpa [joinSpace] using ha2
    subst ha3
    have hmem : (contentWords ws).getD i [] ∈ contentWords ws := getD_mem_of_lt _ i hi2
    obtain ⟨hmemws, hpred⟩ := List.mem_filter.mp hmem
    obtain ⟨hstop, hlen⟩ := Bool.and_eq_true _ _ |>.mp hpred
    exact ⟨hmemws, Bool.not_eq_true' .. |>.mp hstop, of_decide_eq_true hlen⟩
  · intro k
    unfold trigramCounts
    rw [mem_keysOf_buildNgramCounts]
    constructor
    · rintro ⟨i, hi, hc, hk⟩
      exact ⟨i, by omega, hc, hk⟩
    · rintro ⟨i, hi, hc, hk⟩
      exact ⟨i, by omega, hc, hk⟩
  · intro hmem
    obtain ⟨i, hi, hc, hk⟩ := (hbi "on the".data).mp hmem
    rw [windowAt_two _ i hi] at hc hk
    have hmemaL : (longWords ws).getD i [] ∈ longWords ws :=
      getD_mem_of_lt (longWords ws) i (by omega)
    have hmembL : (longWords ws).getD (i + 1) [] ∈ longWords ws :=
      getD_mem_of_lt (longWords ws) (i + 1) (by omega)
    have hmema : (longWords ws).getD i [] ∈ ws := List.mem_of_mem_filter hmemaL
    have hmemb : (longWords ws).getD (i + 1) [] ∈ ws := List.mem_of_mem_filter hmembL
    have hka : (longWords ws).getD i [] ++ ' ' :: (longWords ws).getD (i + 1) []
        = "on".data ++ ' ' :: "the".data := by
      have : "on the".data = "on".data ++ ' ' :: "the".data := by decide
      simpa [joinSpace, this] using hk.symm
    obtain ⟨hae, hbe⟩ := append_space_inj _ _ _ _ (hns _ hmema) (by decide) hka
    rw [hae, hbe] at hc
    exact absurd hc (by decide)
  · intro a b i hi hw hstop2
    rw [hbi (joinSpace [a, b])]
    refine ⟨i, hi, ?_, by rw [hw]⟩
    rw [hw]
    rcases hA : isStopWord a with _ | _
    · simp [List.all_cons, hA]
    · rcases hB : isStopWord b with _ | _
      · simp [List.all_cons, hA, hB]
      · exact absurd ⟨hA, hB⟩ hstop2

/-- A concrete token list for the n-gram witness. -/
def exWords : List Word :=
  ["cooking".data, "on".data, "the".data, "stove".data, "on".data, "the".data]

example : keysOf (bigramCounts exWords)
    = ["cooking on".data, "the stove".data, "stove on".data] := by decide

/-- C4 witness: at the concrete token list the all-stop bigram "on the"
is never surfaced. -/
theorem claim4_witness :
    (∀ w ∈ exWords, ∀ c ∈ w, c ≠ ' ')
    ∧ "on the".data ∉ keysOf (bigramCounts exWords) :=
  ⟨by decide, (claim4_ngramAsymmetry exWords (by decide)).2.2.2.1⟩
